import Mathlib

/-!
Shallow embedding of the CryptoTrader backtest engine (src/backtest.py and
src/strategy.py) in Lean 4.  Python floats are modelled as rationals (ℚ) with
exact arithmetic; Python `None` for the position / entry price / position size
fields is modelled with `Option`; a Python exception escaping `run` is
modelled by `Option.none` as the result of `runBot`.  All functions follow the
source line by line; list `append` models Python's `list.append` (at the end
of the list).
-/

namespace CryptoTrader

/-- Trading side held in `BacktestBot.position` (Python strings `'long'` /
`'short'`; `None` is modelled as `Option.none` at the use sites). -/
inductive Side where
  | long : Side
  | short : Side
deriving DecidableEq, Repr

/-- Signal returned by `evaluate_signals` (Python strings `'BUY'`, `'SELL'`,
`'HOLD'`). -/
inductive Signal where
  | BUY : Signal
  | SELL : Signal
  | HOLD : Signal
deriving DecidableEq, Repr

/-- One OHLCV bar of the input frame (a row of the CSV).  The Python field
`open` is renamed `open_` because `open` is a Lean keyword. -/
structure Bar where
  timestamp : ℕ
  open_ : ℚ
  high : ℚ
  low : ℚ
  close : ℚ
  volume : ℚ
deriving DecidableEq, Repr

instance : Inhabited Bar := ⟨⟨0, 0, 0, 0, 0, 0⟩⟩

/-- A closed-trade record, the tuple
`(timestamp, position, entry, exit, pnl)` appended to `self.trades` in
`BacktestBot.close_trade`. -/
structure Trade where
  timestamp : ℕ
  side : Side
  entry : ℚ
  exit : ℚ
  pnl : ℚ
deriving DecidableEq, Repr

/-- The mutable state of a `BacktestBot` instance (src/backtest.py, `__init__`).
`equity_times` / `equity_curve` grow by appending at the end, as Python's
`list.append` does. -/
structure BotState where
  start_balance : ℚ
  balance : ℚ
  commission : ℚ
  slippage : ℚ
  position : Option Side
  entry_price : Option ℚ
  position_size : Option ℚ
  trades : List Trade
  equity_times : List ℕ
  equity_curve : List ℚ
deriving DecidableEq, Repr

/-- `BacktestBot.__init__(initial_balance, commission, slippage)`. -/
def mkBot (initial_balance commission slippage : ℚ) : BotState :=
  { start_balance := initial_balance
    balance := initial_balance
    commission := commission
    slippage := slippage
    position := none
    entry_price := none
    position_size := none
    trades := []
    equity_times := []
    equity_curve := [] }

/-! ## Strategy (src/strategy.py) -/

def DEFAULT_SHORT_PERIOD : ℕ := 5

def DEFAULT_LONG_PERIOD : ℕ := 10

def DEFAULT_TOLERANCE : ℚ := 0.01

/-- `calculate_ma(prices, period)`: simple moving average of the last
`period` prices, `None` when there is not enough data
(`prices[-period:]` is the last `period` elements). -/
def calculate_ma (prices : List ℚ) (period : ℕ) : Option ℚ :=
  if prices.length < period then none
  else some ((prices.drop (prices.length - period)).sum / (period : ℚ))

/-- The dictionary returned by `calculate_fibonacci_levels`; field `lvl618`
is the `'61.8%'` entry, and so on. -/
structure FibLevels where
  lvl0 : ℚ
  lvl236 : ℚ
  lvl382 : ℚ
  lvl500 : ℚ
  lvl618 : ℚ
  lvl100 : ℚ
deriving DecidableEq, Repr

/-- `calculate_fibonacci_levels(high, low)`. -/
def calculate_fibonacci_levels (high low : ℚ) : FibLevels :=
  let diff := high - low
  { lvl0 := high
    lvl236 := high - 0.236 * diff
    lvl382 := high - 0.382 * diff
    lvl500 := high - 0.5 * diff
    lvl618 := high - 0.618 * diff
    lvl100 := low }

/-- `near_fibonacci(target, price, tol)`: `False` when `target == 0`,
otherwise `abs(price - target) / target <= tol`. -/
def near_fibonacci (target price tol : ℚ) : Bool :=
  if target = 0 then false
  else decide (|price - target| / target ≤ tol)

/-- `evaluate_signals(closes, fib_levels)` with the default periods and
tolerance (the only call site, `BacktestBot.run`, uses the defaults). -/
def evaluate_signals (closes : List ℚ) (fib : FibLevels) : Signal :=
  match calculate_ma closes DEFAULT_SHORT_PERIOD,
        calculate_ma closes DEFAULT_LONG_PERIOD with
  | some short_ma, some long_ma =>
    let current_price := closes.getLastD 0
    let is_near_fib_buy := near_fibonacci fib.lvl618 current_price DEFAULT_TOLERANCE
    let is_near_fib_sell := near_fibonacci fib.lvl382 current_price DEFAULT_TOLERANCE
    if short_ma > long_ma ∧ is_near_fib_buy = true then Signal.BUY
    else if short_ma < long_ma ∧ is_near_fib_sell = true then Signal.SELL
    else Signal.HOLD
  | _, _ => Signal.HOLD

/-! ## Trade executor (src/backtest.py) -/

/-- `BacktestBot.open_trade(position, price, timestamp)`:
stake is 10% of the current balance, size is `stake / price`, the open
commission `price * size * commission` is charged to the balance, and the
position fields are set. -/
def open_trade (position : Side) (price : ℚ) (timestamp : ℕ) (st : BotState) :
    BotState :=
  let stake := st.balance * 0.1
  let size := stake / price
  let cost := price * size * st.commission
  { st with
    balance := st.balance - cost
    position := some position
    entry_price := some price
    position_size := some size }

/-- `BacktestBot.close_trade(price, timestamp)`: a no-op when flat;
otherwise credit `pnl_net = gross - close commission` to the balance, append
the trade record and reset the position fields to `None`.  The Python
`Optional` fields `entry_price` / `position_size` are read here with
`Option.getD 0`; they are always `some` when `position` is `some`. -/
def close_trade (price : ℚ) (timestamp : ℕ) (st : BotState) : BotState :=
  match st.position with
  | none => st
  | some side =>
    let direction : ℚ := if side = Side.long then 1 else -1
    let entry := st.entry_price.getD 0
    let size := st.position_size.getD 0
    let pnl := (price - entry) * size * direction
    let cost := price * size * st.commission
    let pnl_net := pnl - cost
    { st with
      balance := st.balance + pnl_net
      trades := st.trades ++ [⟨timestamp, side, entry, price, pnl_net⟩]
      position := none
      entry_price := none
      position_size := none }

/-- `BacktestBot.handle_trade(signal, price, timestamp)`. -/
def handle_trade (signal : Signal) (price : ℚ) (timestamp : ℕ) (st : BotState) :
    BotState :=
  if signal = Signal.BUY ∧ st.position ≠ some Side.long then
    open_trade Side.long price timestamp (close_trade price timestamp st)
  else if signal = Signal.SELL ∧ st.position ≠ some Side.short then
    open_trade Side.short price timestamp (close_trade price timestamp st)
  else st

/-! ## The run loop (src/backtest.py, `BacktestBot.run`) -/

/-- The slippage-adjusted fill price of `run`:
`price * (1 + slippage if position=='long' else 1 - slippage if
position=='short' else 1)`. -/
def fillPrice (st : BotState) (price : ℚ) : ℚ :=
  price * (if st.position = some Side.long then 1 + st.slippage
           else if st.position = some Side.short then 1 - st.slippage
           else 1)

/-- The signal computed inside the loop for bar `i`:
`calculate_fibonacci_levels(highs[i-20:i].max(), lows[i-20:i].min())` fed to
`evaluate_signals(closes[:i+1], fib)`. -/
def signalAt (bars : List Bar) (i : ℕ) : Signal :=
  let highsWin := ((bars.map Bar.high).drop (i - 20)).take 20
  let lowsWin := ((bars.map Bar.low).drop (i - 20)).take 20
  let fib := calculate_fibonacci_levels
    (match highsWin with | [] => 0 | h :: t => t.foldl max h)
    (match lowsWin with | [] => 0 | h :: t => t.foldl min h)
  evaluate_signals ((bars.map Bar.close).take (i + 1)) fib

/-- The two `append` calls after `handle_trade`: record `(t, balance)` on the
equity curve. -/
def recordEquity (t : ℕ) (st : BotState) : BotState :=
  { st with
    equity_times := st.equity_times ++ [t]
    equity_curve := st.equity_curve ++ [st.balance] }

/-- One iteration of the `for i in range(20, len(df))` loop. -/
def stepBar (bars : List Bar) (i : ℕ) (st : BotState) : BotState :=
  let t := (bars.getD i default).timestamp
  let price := (bars.getD i default).close
  recordEquity t (handle_trade (signalAt bars i) (fillPrice st price) t st)

/-- Run the loop body over a list of bar indices, in order. -/
def loopIdx (bars : List Bar) : List ℕ → BotState → BotState
  | [], st => st
  | i :: rest, st => loopIdx bars rest (stepBar bars i st)

/-- The whole `for i in range(20, len(df))` loop. -/
def loopBars (bars : List Bar) (st : BotState) : BotState :=
  loopIdx bars ((List.range bars.length).drop 20) st

/-- The seeding of the equity curve before the loop:
`equity_times.append(times[0]); equity_curve.append(self.balance)`. -/
def seedEquity (bars : List Bar) (st : BotState) : BotState :=
  { st with
    equity_times := st.equity_times ++ [(bars.headD default).timestamp]
    equity_curve := st.equity_curve ++ [st.balance] }

/-- The final forced close after the loop:
`if self.position: self.close_trade(closes[-1], times[-1])` — the raw close
of the last bar, not the slippage-adjusted fill price. -/
def finalClose (bars : List Bar) (st : BotState) : BotState :=
  if st.position.isSome then
    close_trade (bars.getLastD default).close (bars.getLastD default).timestamp st
  else st

/-- `BacktestBot.run(df)`.  On an empty frame the Python code raises
`IndexError` at `times[0]` (the equity seeding), modelled as `none`.
`summary` and `export_trades` do not mutate the state. -/
def runBot (bars : List Bar) (st : BotState) : Option BotState :=
  match bars with
  | [] => none
  | _ :: _ => some (finalClose bars (loopBars bars (seedEquity bars st)))

/-! ## Summary statistics (src/backtest.py, `BacktestBot.summary`)

`summary` builds `returns = balance.pct_change().fillna(0)` and computes
`returns.mean() / returns.std() * sqrt(252*24*12)`, the running peak and the
maximum drawdown.  It reads the equity curve and never writes the state. -/

/-- Tail of pandas `pct_change`: each element is
`current / previous - 1`, threaded left to right. -/
def pctChangeAux (prev : ℚ) : List ℚ → List ℚ
  | [] => []
  | x :: xs => (x / prev - 1) :: pctChangeAux x xs

/-- `balance.pct_change().fillna(0)`: the first return is `NaN`, filled with
`0`; each later return is `balance_i / balance_(i-1) - 1`.  Faithful to the
Python wherever no previous balance is `0` (ℚ division by zero is `0` here,
`inf`/`NaN` in pandas). -/
def returnsOf : List ℚ → List ℚ
  | [] => []
  | b :: rest => 0 :: pctChangeAux b rest

/-- Arithmetic mean, `Series.mean()`. -/
def mean (l : List ℚ) : ℚ := l.sum / (l.length : ℚ)

/-- Sum of squared deviations from the mean; `Series.std()` (with pandas'
default `ddof=1`) is `sqrt (ssd l / (l.length - 1))`. -/
def ssd (l : List ℚ) : ℚ := (l.map (fun x => (x - mean l) ^ 2)).sum

/-- The `sqrt(252*24*12)` annualization constant of `summary`. -/
def annualization_factor : ℚ := 252 * 24 * 12

/-- Exact-value model of the IEEE float produced by
`returns.mean() / returns.std() * np.sqrt(252*24*12)`.
`fin coeff radicand` denotes the real number `coeff * sqrt radicand`
(for `radicand > 0`); `nan` and `inf` are the IEEE non-finite outcomes. -/
inductive SharpeVal where
  | nan : SharpeVal
  | inf (positive : Bool) : SharpeVal
  | fin (coeff : ℚ) (radicand : ℚ) : SharpeVal
deriving DecidableEq, Repr

/-- The Sharpe ratio of `summary` as a function of the equity curve.
With fewer than two returns, `mean` (empty series) or `std` (`ddof=1` with
one sample) is `NaN`, hence `nan`.  With sample variance `v = 0`, the float
division gives `NaN` when the mean is also `0` and a signed infinity
otherwise.  Otherwise the value is
`m / sqrt v * sqrt A = m * sqrt (A / v)`, encoded as `fin m (A / v)`. -/
def sharpeOf (curve : List ℚ) : SharpeVal :=
  let r := returnsOf curve
  if r.length < 2 then SharpeVal.nan
  else
    let m := mean r
    let v := ssd r / ((r.length : ℚ) - 1)
    if v = 0 then
      if m = 0 then SharpeVal.nan else SharpeVal.inf (decide (0 < m))
    else SharpeVal.fin m (annualization_factor / v)

/-- Tail of `Series.cummax()`: running maxima, threading the peak so far. -/
def cummaxAux (acc : ℚ) : List ℚ → List ℚ
  | [] => []
  | x :: xs => max acc x :: cummaxAux (max acc x) xs

/-- `((balance - peak) / peak).min()` of `summary`: the maximum drawdown. -/
def maxDrawdown (curve : List ℚ) : ℚ :=
  match curve with
  | [] => 0
  | b :: rest =>
    let peaks := cummaxAux b (b :: rest)
    let dds := (curve.zip peaks).map (fun bp => (bp.1 - bp.2) / bp.2)
    match dds with
    | [] => 0
    | d :: ds => ds.foldl min d

/-! ## Ghost-instrumented run for balance reconciliation

The open commissions paid so far are not stored anywhere in `BacktestBot`;
to state the reconciliation invariant they are accumulated in a ghost `ℚ`
component alongside the unchanged `BotState`.  Each `...G` function is the
corresponding source function with the ghost threaded through; `open_tradeG`
additionally adds the open commission it charges to the ghost. -/

/-- `open_trade` with the charged open commission added to the ghost sum. -/
def open_tradeG (position : Side) (price : ℚ) (timestamp : ℕ)
    (p : BotState × ℚ) : BotState × ℚ :=
  let stake := p.1.balance * 0.1
  let size := stake / price
  let cost := price * size * p.1.commission
  (open_trade position price timestamp p.1, p.2 + cost)

/-- `close_trade` leaves the ghost open-commission sum unchanged. -/
def close_tradeG (price : ℚ) (timestamp : ℕ) (p : BotState × ℚ) :
    BotState × ℚ :=
  (close_trade price timestamp p.1, p.2)

/-- `handle_trade` over the ghost-carrying state. -/
def handle_tradeG (signal : Signal) (price : ℚ) (timestamp : ℕ)
    (p : BotState × ℚ) : BotState × ℚ :=
  if signal = Signal.BUY ∧ p.1.position ≠ some Side.long then
    open_tradeG Side.long price timestamp (close_tradeG price timestamp p)
  else if signal = Signal.SELL ∧ p.1.position ≠ some Side.short then
    open_tradeG Side.short price timestamp (close_tradeG price timestamp p)
  else p

/-- `stepBar` over the ghost-carrying state. -/
def stepBarG (bars : List Bar) (i : ℕ) (p : BotState × ℚ) : BotState × ℚ :=
  let t := (bars.getD i default).timestamp
  let price := (bars.getD i default).close
  let p2 := handle_tradeG (signalAt bars i) (fillPrice p.1 price) t p
  (recordEquity t p2.1, p2.2)

/-- `loopIdx` over the ghost-carrying state. -/
def loopIdxG (bars : List Bar) : List ℕ → BotState × ℚ → BotState × ℚ
  | [], p => p
  | i :: rest, p => loopIdxG bars rest (stepBarG bars i p)

/-- `loopBars` over the ghost-carrying state. -/
def loopBarsG (bars : List Bar) (p : BotState × ℚ) : BotState × ℚ :=
  loopIdxG bars ((List.range bars.length).drop 20) p

/-- `seedEquity` over the ghost-carrying state. -/
def seedEquityG (bars : List Bar) (p : BotState × ℚ) : BotState × ℚ :=
  (seedEquity bars p.1, p.2)

/-- `finalClose` over the ghost-carrying state. -/
def finalCloseG (bars : List Bar) (p : BotState × ℚ) : BotState × ℚ :=
  if p.1.position.isSome then
    close_tradeG (bars.getLastD default).close (bars.getLastD default).timestamp p
  else p

/-- `runBot` over the ghost-carrying state. -/
def runG (bars : List Bar) (p : BotState × ℚ) : Option (BotState × ℚ) :=
  match bars with
  | [] => none
  | _ :: _ => some (finalCloseG bars (loopBarsG bars (seedEquityG bars p)))

/-- Sum of the recorded net PnL over a trade ledger. -/
def sumPnl (ts : List Trade) : ℚ := (ts.map Trade.pnl).sum

/-- The balance-reconciliation invariant: the balance equals the starting
balance, minus all open commissions paid so far (the ghost component), plus
the net PnL of every closed trade recorded so far. -/
def ReconInv (b0 : ℚ) (p : BotState × ℚ) : Prop :=
  p.1.balance = b0 - p.2 + sumPnl p.1.trades

/-! ## Frame lemmas about the executor -/

theorem open_trade_trades (pos : Side) (p : ℚ) (t : ℕ) (st : BotState) :
    (open_trade pos p t st).trades = st.trades := rfl

theorem open_trade_equity_curve (pos : Side) (p : ℚ) (t : ℕ) (st : BotState) :
    (open_trade pos p t st).equity_curve = st.equity_curve := rfl

theorem open_trade_equity_times (pos : Side) (p : ℚ) (t : ℕ) (st : BotState) :
    (open_trade pos p t st).equity_times = st.equity_times := rfl

theorem close_trade_of_flat (p : ℚ) (t : ℕ) (st : BotState)
    (h : st.position = none) : close_trade p t st = st := by
  simp [close_trade, h]

theorem close_trade_equity_curve (p : ℚ) (t : ℕ) (st : BotState) :
    (close_trade p t st).equity_curve = st.equity_curve := by
  cases h : st.position <;> simp [close_trade, h]

theorem close_trade_equity_times (p : ℚ) (t : ℕ) (st : BotState) :
    (close_trade p t st).equity_times = st.equity_times := by
  cases h : st.position <;> simp [close_trade, h]

/-- Closing an open position credits exactly the recorded net PnL and
appends exactly that one trade record. -/
theorem close_trade_of_some (p : ℚ) (t : ℕ) (st : BotState) (side : Side)
    (h : st.position = some side) :
    ∃ tr : Trade,
      close_trade p t st =
        { st with
          balance := st.balance + tr.pnl
          trades := st.trades ++ [tr]
          position := none
          entry_price := none
          position_size := none } := by
  refine ⟨⟨t, side, st.entry_price.getD 0, p,
    (p - st.entry_price.getD 0) * st.position_size.getD 0 *
        (if side = Side.long then 1 else -1) -
      p * st.position_size.getD 0 * st.commission⟩, ?_⟩
  simp [close_trade, h]

theorem handle_trade_equity_curve (sig : Signal) (p : ℚ) (t : ℕ)
    (st : BotState) :
    (handle_trade sig p t st).equity_curve = st.equity_curve := by
  unfold handle_trade
  split
  · rw [open_trade_equity_curve, close_trade_equity_curve]
  · split
    · rw [open_trade_equity_curve, close_trade_equity_curve]
    · rfl

theorem handle_trade_equity_times (sig : Signal) (p : ℚ) (t : ℕ)
    (st : BotState) :
    (handle_trade sig p t st).equity_times = st.equity_times := by
  unfold handle_trade
  split
  · rw [open_trade_equity_times, close_trade_equity_times]
  · split
    · rw [open_trade_equity_times, close_trade_equity_times]
    · rfl

theorem recordEquity_balance (t : ℕ) (st : BotState) :
    (recordEquity t st).balance = st.balance := rfl

theorem recordEquity_trades (t : ℕ) (st : BotState) :
    (recordEquity t st).trades = st.trades := rfl

theorem stepBar_curve_len (bars : List Bar) (i : ℕ) (st : BotState) :
    (stepBar bars i st).equity_curve.length = st.equity_curve.length + 1 := by
  simp [stepBar, recordEquity, handle_trade_equity_curve]

theorem stepBar_times_len (bars : List Bar) (i : ℕ) (st : BotState) :
    (stepBar bars i st).equity_times.length = st.equity_times.length + 1 := by
  simp [stepBar, recordEquity, handle_trade_equity_times]

/-- After a loop step the last equity point is the current balance: the point
is appended after `handle_trade` has run. -/
theorem stepBar_curve_last (bars : List Bar) (i : ℕ) (st : BotState) :
    (stepBar bars i st).equity_curve.getLast? = some (stepBar bars i st).balance := by
  simp [stepBar, recordEquity]

theorem loopIdx_curve_len (bars : List Bar) (idxs : List ℕ) (st : BotState) :
    (loopIdx bars idxs st).equity_curve.length =
      st.equity_curve.length + idxs.length := by
  induction idxs generalizing st with
  | nil => simp [loopIdx]
  | cons i rest ih =>
      simp [loopIdx, ih, stepBar_curve_len]
      omega

theorem loopIdx_times_len (bars : List Bar) (idxs : List ℕ) (st : BotState) :
    (loopIdx bars idxs st).equity_times.length =
      st.equity_times.length + idxs.length := by
  induction idxs generalizing st with
  | nil => simp [loopIdx]
  | cons i rest ih =>
      simp [loopIdx, ih, stepBar_times_len]
      omega

theorem loopIdx_curve_last (bars : List Bar) (idxs : List ℕ) (st : BotState)
    (h : st.equity_curve.getLast? = some st.balance) :
    (loopIdx bars idxs st).equity_curve.getLast? =
      some (loopIdx bars idxs st).balance := by
  induction idxs generalizing st with
  | nil => simpa [loopIdx] using h
  | cons i rest ih => exact ih _ (stepBar_curve_last bars i st)

theorem loopIdx_position_of_empty (bars : List Bar) (st : BotState)
    (h : (List.range bars.length).drop 20 = []) :
    loopBars bars st = st := by
  simp [loopBars, h, loopIdx]

theorem finalClose_equity_curve (bars : List Bar) (st : BotState) :
    (finalClose bars st).equity_curve = st.equity_curve := by
  unfold finalClose
  split
  · rw [close_trade_equity_curve]
  · rfl

theorem finalClose_equity_times (bars : List Bar) (st : BotState) :
    (finalClose bars st).equity_times = st.equity_times := by
  unfold finalClose
  split
  · rw [close_trade_equity_times]
  · rfl

/-! ## Ghost run projects onto the real run -/

theorem handle_tradeG_fst (sig : Signal) (p : ℚ) (t : ℕ) (q : BotState × ℚ) :
    (handle_tradeG sig p t q).1 = handle_trade sig p t q.1 := by
  unfold handle_tradeG handle_trade
  split
  · rfl
  · split <;> rfl

theorem stepBarG_fst (bars : List Bar) (i : ℕ) (q : BotState × ℚ) :
    (stepBarG bars i q).1 = stepBar bars i q.1 := by
  simp [stepBarG, stepBar, handle_tradeG_fst]

theorem loopIdxG_fst (bars : List Bar) (idxs : List ℕ) (q : BotState × ℚ) :
    (loopIdxG bars idxs q).1 = loopIdx bars idxs q.1 := by
  induction idxs generalizing q with
  | nil => rfl
  | cons i rest ih => simp [loopIdxG, loopIdx, ih, stepBarG_fst]

theorem finalCloseG_fst (bars : List Bar) (q : BotState × ℚ) :
    (finalCloseG bars q).1 = finalClose bars q.1 := by
  unfold finalCloseG finalClose
  split <;> simp_all [close_tradeG]

theorem runG_fst (bars : List Bar) (q : BotState × ℚ) :
    (runG bars q).map Prod.fst = runBot bars q.1 := by
  cases bars with
  | nil => rfl
  | cons b rest =>
      simp [runG, runBot, finalCloseG_fst, loopBarsG, loopBars, loopIdxG_fst,
        seedEquityG]

/-! ## The reconciliation invariant is preserved by every operation -/

theorem sumPnl_append (ts : List Trade) (tr : Trade) :
    sumPnl (ts ++ [tr]) = sumPnl ts + tr.pnl := by
  simp [sumPnl]

theorem recon_open (b0 : ℚ) (pos : Side) (p : ℚ) (t : ℕ) (q : BotState × ℚ)
    (h : ReconInv b0 q) : ReconInv b0 (open_tradeG pos p t q) := by
  unfold ReconInv at h ⊢
  simp only [open_tradeG, open_trade]
  rw [h]
  ring

theorem recon_close (b0 : ℚ) (p : ℚ) (t : ℕ) (q : BotState × ℚ)
    (h : ReconInv b0 q) : ReconInv b0 (close_tradeG p t q) := by
  unfold ReconInv at h ⊢
  cases hp : q.1.position with
  | none => simpa [close_tradeG, close_trade, hp] using h
  | some side =>
      simp [close_tradeG, close_trade, hp, sumPnl_append]
      rw [h]
      ring

theorem recon_handle (b0 : ℚ) (sig : Signal) (p : ℚ) (t : ℕ)
    (q : BotState × ℚ) (h : ReconInv b0 q) :
    ReconInv b0 (handle_tradeG sig p t q) := by
  unfold handle_tradeG
  split
  · exact recon_open b0 _ _ _ _ (recon_close b0 _ _ _ h)
  · split
    · exact recon_open b0 _ _ _ _ (recon_close b0 _ _ _ h)
    · exact h

theorem recon_step (b0 : ℚ) (bars : List Bar) (i : ℕ) (q : BotState × ℚ)
    (h : ReconInv b0 q) : ReconInv b0 (stepBarG bars i q) := by
  have h2 := recon_handle b0 (signalAt bars i)
    (fillPrice q.1 (bars.getD i default).close) (bars.getD i default).timestamp q h
  unfold ReconInv at h2 ⊢
  simpa [stepBarG, recordEquity] using h2

theorem recon_loopIdx (b0 : ℚ) (bars : List Bar) (idxs : List ℕ)
    (q : BotState × ℚ) (h : ReconInv b0 q) :
    ReconInv b0 (loopIdxG bars idxs q) := by
  induction idxs generalizing q with
  | nil => exact h
  | cons i rest ih => exact ih _ (recon_step b0 bars i q h)

theorem recon_final (b0 : ℚ) (bars : List Bar) (q : BotState × ℚ)
    (h : ReconInv b0 q) : ReconInv b0 (finalCloseG bars q) := by
  unfold finalCloseG
  split
  · exact recon_close b0 _ _ _ h
  · exact h

/-! ## Claim C1 -/

/-- C1 counterexample.  In the spec's concrete scenario
(`initial_balance = 10000`, `commission_rate = 0.0005`, `slippage_rate = 0`,
open Long at 100, close at 110) the code charges a close commission of
`110 * 10 * 0.0005 = 0.55`, not `5.5`: the final balance is `10098.95`, not
`10094.0`, and the single ledger row carries `net_pnl = 99.45`, not `94.5`. -/
theorem c1_scenario_counterexample :
    (close_trade 110 1 (open_trade Side.long 100 0 (mkBot 10000 0.0005 0))).balance
        = 10098.95 ∧
    (close_trade 110 1 (open_trade Side.long 100 0 (mkBot 10000 0.0005 0))).balance
        ≠ 10094 ∧
    (close_trade 110 1 (open_trade Side.long 100 0 (mkBot 10000 0.0005 0))).trades
        ≠ [⟨1, Side.long, 100, 110, 94.5⟩] := by
  refine ⟨?_, ?_, ?_⟩ <;> norm_num [close_trade, open_trade, mkBot]

/-- C1 (amended).  Same scenario with the arithmetic the code performs:
opening the Long yields `size = 10`, open commission `0.5` and balance
`9999.5`; closing at 110 yields close commission `0.55`, `net_pnl = 99.45`,
final balance `10098.95`, and the ledger holds exactly the one row
`(t, Long, 100, 110, 99.45)`. -/
theorem c1_scenario_amended :
    (open_trade Side.long 100 0 (mkBot 10000 0.0005 0)).position_size = some 10 ∧
    (mkBot 10000 0.0005 0).balance
        - (open_trade Side.long 100 0 (mkBot 10000 0.0005 0)).balance = 0.5 ∧
    (open_trade Side.long 100 0 (mkBot 10000 0.0005 0)).balance = 9999.5 ∧
    (close_trade 110 1 (open_trade Side.long 100 0 (mkBot 10000 0.0005 0))).balance
        = 10098.95 ∧
    (close_trade 110 1 (open_trade Side.long 100 0 (mkBot 10000 0.0005 0))).trades
        = [⟨1, Side.long, 100, 110, 99.45⟩] ∧
    (close_trade 110 1 (open_trade Side.long 100 0 (mkBot 10000 0.0005 0))).position
        = none := by
  refine ⟨?_, ?_, ?_, ?_, ?_, ?_⟩ <;> norm_num [close_trade, open_trade, mkBot]

/-! ## Claim C7 -/

/-- C7.  Calling `close_trade` while flat is a no-op: the returned state is
the input state, so no trade record is appended and balance, position, entry
price and position size are unchanged. -/
theorem c7_close_trade_flat_noop (p : ℚ) (t : ℕ) (st : BotState)
    (h : st.position = none) : close_trade p t st = st :=
  close_trade_of_flat p t st h

/-- C7 witness at a concrete flat state. -/
theorem c7_close_trade_flat_noop_witness :
    (mkBot 100 0.5 0).position = none ∧
    close_trade 5 3 (mkBot 100 0.5 0) = mkBot 100 0.5 0 :=
  ⟨rfl, c7_close_trade_flat_noop 5 3 (mkBot 100 0.5 0) rfl⟩

/-! ## Claim C4 -/

/-- C4.  The per-bar decision policy of `handle_trade`: a BUY against a
non-long state closes then opens Long; a SELL against a non-short state
closes then opens Short; HOLD, or a signal matching the held side, leaves
the state untouched; and a reversal out of an open position appends exactly
one trade record (the close) and ends with exactly the newly opened side
(at most one position is open at any time, `position : Option Side`). -/
theorem c4_handle_trade_policy (sig : Signal) (p : ℚ) (t : ℕ) (st : BotState) :
    (sig = Signal.BUY → st.position ≠ some Side.long →
      handle_trade sig p t st = open_trade Side.long p t (close_trade p t st)) ∧
    (sig = Signal.SELL → st.position ≠ some Side.short →
      handle_trade sig p t st = open_trade Side.short p t (close_trade p t st)) ∧
    (sig = Signal.HOLD → handle_trade sig p t st = st) ∧
    (sig = Signal.BUY → st.position = some Side.long →
      handle_trade sig p t st = st) ∧
    (sig = Signal.SELL → st.position = some Side.short →
      handle_trade sig p t st = st) ∧
    (∀ side : Side, st.position = some side →
      ((sig = Signal.BUY ∧ side ≠ Side.long) ∨ (sig = Signal.SELL ∧ side ≠ Side.short)) →
      (handle_trade sig p t st).trades.length = st.trades.length + 1 ∧
      (handle_trade sig p t st).position =
        some (if sig = Signal.BUY then Side.long else Side.short)) := by
  refine ⟨?_, ?_, ?_, ?_, ?_, ?_⟩
  · intro h1 h2; simp [handle_trade, h1, h2]
  · intro h1 h2; cases sig <;> simp_all [handle_trade]
  · intro h1; simp [handle_trade, h1]
  · intro h1 h2; simp [handle_trade, h1, h2]
  · intro h1 h2; cases sig <;> simp_all [handle_trade]
  · intro side hpos hrev
    obtain ⟨tr, hcl⟩ := close_trade_of_some p t st side hpos
    rcases hrev with ⟨h1, h2⟩ | ⟨h1, h2⟩
    · have hne : st.position ≠ some Side.long := by simp [hpos, h2]
      constructor
      · simp [handle_trade, h1, hne, open_trade_trades, hcl]
      · simp [handle_trade, h1, hne, open_trade]
    · have hne : st.position ≠ some Side.short := by simp [hpos, h2]
      constructor
      · cases sig <;> simp_all [handle_trade, open_trade_trades, hcl]
      · cases sig <;> simp_all [handle_trade, open_trade]

/-- C4 witness: a SELL against an open Long position closes it (one new
ledger row) and opens a Short at the same step. -/
theorem c4_handle_trade_policy_witness :
    (open_trade Side.long 100 0 (mkBot 10000 0.0005 0)).position = some Side.long ∧
    (handle_trade Signal.SELL 110 1
        (open_trade Side.long 100 0 (mkBot 10000 0.0005 0))).trades.length =
      (open_trade Side.long 100 0 (mkBot 10000 0.0005 0)).trades.length + 1 ∧
    (handle_trade Signal.SELL 110 1
        (open_trade Side.long 100 0 (mkBot 10000 0.0005 0))).position =
      some (if (Signal.SELL : Signal) = Signal.BUY then Side.long else Side.short) :=
  ⟨rfl,
    (c4_handle_trade_policy Signal.SELL 110 1
        (open_trade Side.long 100 0 (mkBot 10000 0.0005 0))).2.2.2.2.2
      Side.long rfl (Or.inr ⟨rfl, by simp⟩)⟩

/-! ## Claim C5 -/

/-- C5.  The fill price handed to the trade decision inside the loop is the
bar close worsened by `+slippage` when currently long, by `-slippage` when
currently short, and the unadjusted close when flat; it depends only on the
side held before the decision (and the slippage parameter), and `stepBar`
passes exactly `fillPrice st close` of the pre-decision state to
`handle_trade`. -/
theorem c5_fill_price (st : BotState) (p : ℚ) :
    (st.position = some Side.long → fillPrice st p = p * (1 + st.slippage)) ∧
    (st.position = some Side.short → fillPrice st p = p * (1 - st.slippage)) ∧
    (st.position = none → fillPrice st p = p) ∧
    (∀ st2 : BotState, st2.position = st.position → st2.slippage = st.slippage →
      fillPrice st2 p = fillPrice st p) ∧
    (∀ bars i, stepBar bars i st =
      recordEquity (bars.getD i default).timestamp
        (handle_trade (signalAt bars i) (fillPrice st (bars.getD i default).close)
          (bars.getD i default).timestamp st)) := by
  refine ⟨?_, ?_, ?_, ?_, ?_⟩
  · intro h; simp [fillPrice, h]
  · intro h; simp [fillPrice, h]
  · intro h; simp [fillPrice, h]
  · intro st2 h1 h2; simp [fillPrice, h1, h2]
  · intro bars i; rfl

/-- C5 witness on the three concrete position states. -/
theorem c5_fill_price_witness :
    fillPrice { mkBot 10000 0.0005 0.0002 with position := some Side.long } 50 =
      50 * (1 + (0.0002 : ℚ)) ∧
    fillPrice { mkBot 10000 0.0005 0.0002 with position := some Side.short } 50 =
      50 * (1 - (0.0002 : ℚ)) ∧
    fillPrice (mkBot 10000 0.0005 0.0002) 50 = 50 :=
  ⟨(c5_fill_price { mkBot 10000 0.0005 0.0002 with position := some Side.long } 50).1 rfl,
   (c5_fill_price { mkBot 10000 0.0005 0.0002 with position := some Side.short } 50).2.1 rfl,
   (c5_fill_price (mkBot 10000 0.0005 0.0002) 50).2.2.1 rfl⟩

/-! ## More frame lemmas for the loop -/

theorem seedEquity_balance (bars : List Bar) (st : BotState) :
    (seedEquity bars st).balance = st.balance := rfl

theorem seedEquity_trades (bars : List Bar) (st : BotState) :
    (seedEquity bars st).trades = st.trades := rfl

theorem seedEquity_position (bars : List Bar) (st : BotState) :
    (seedEquity bars st).position = st.position := rfl

theorem stepBar_curve_eq (bars : List Bar) (i : ℕ) (st : BotState) :
    (stepBar bars i st).equity_curve =
      st.equity_curve ++
        [(handle_trade (signalAt bars i) (fillPrice st (bars.getD i default).close)
            (bars.getD i default).timestamp st).balance] := by
  simp [stepBar, recordEquity, handle_trade_equity_curve]

theorem stepBar_times_eq (bars : List Bar) (i : ℕ) (st : BotState) :
    (stepBar bars i st).equity_times =
      st.equity_times ++ [(bars.getD i default).timestamp] := by
  simp [stepBar, recordEquity, handle_trade_equity_times]

theorem loopIdx_curve_head (bars : List Bar) (idxs : List ℕ) :
    ∀ (st : BotState) (a : ℚ) (l : List ℚ), st.equity_curve = a :: l →
      (loopIdx bars idxs st).equity_curve.head? = some a := by
  induction idxs with
  | nil => intro st a l h; simp [loopIdx, h]
  | cons i rest ih =>
      intro st a l h
      exact ih (stepBar bars i st) a
        (l ++ [(handle_trade (signalAt bars i)
            (fillPrice st (bars.getD i default).close)
            (bars.getD i default).timestamp st).balance])
        (by rw [stepBar_curve_eq, h]; rfl)

theorem loopIdx_times_head (bars : List Bar) (idxs : List ℕ) :
    ∀ (st : BotState) (a : ℕ) (l : List ℕ), st.equity_times = a :: l →
      (loopIdx bars idxs st).equity_times.head? = some a := by
  induction idxs with
  | nil => intro st a l h; simp [loopIdx, h]
  | cons i rest ih =>
      intro st a l h
      exact ih (stepBar bars i st) a (l ++ [(bars.getD i default).timestamp])
        (by rw [stepBar_times_eq, h]; rfl)

/-! ## Claim C3 -/

/-- C3.  After a completed run from a fresh bot, the equity series has one
seed point `(first bar timestamp, initial balance)` plus exactly one point
per processed bar (the loop processes `bars.length - 20` bars, truncated at
zero), one appended per iteration unconditionally. -/
theorem c3_equity_length (b c s : ℚ) (bars : List Bar) (stF : BotState)
    (h : runBot bars (mkBot b c s) = some stF) :
    stF.equity_curve.length = (bars.length - 20) + 1 ∧
    stF.equity_times.length = (bars.length - 20) + 1 ∧
    stF.equity_curve.head? = some b ∧
    stF.equity_times.head? = some (bars.headD default).timestamp ∧
    (∀ (i : ℕ) (st0 : BotState),
      (stepBar bars i st0).equity_curve.length = st0.equity_curve.length + 1) := by
  cases bars with
  | nil => simp [runBot] at h
  | cons bar rest =>
      have hst : stF = finalClose (bar :: rest)
          (loopBars (bar :: rest) (seedEquity (bar :: rest) (mkBot b c s))) := by
        simpa [runBot] using h.symm
      subst hst
      have hseedc : (seedEquity (bar :: rest) (mkBot b c s)).equity_curve = [b] := rfl
      have hseedt : (seedEquity (bar :: rest) (mkBot b c s)).equity_times =
        [bar.timestamp] := rfl
      refine ⟨?_, ?_, ?_, ?_, fun i st0 => stepBar_curve_len _ i st0⟩
      · rw [finalClose_equity_curve, loopBars, loopIdx_curve_len, hseedc]
        simp [Nat.add_comm]
      · rw [finalClose_equity_times, loopBars, loopIdx_times_len, hseedt]
        simp [Nat.add_comm]
      · rw [finalClose_equity_curve, loopBars]
        exact loopIdx_curve_head _ _ _ b [] hseedc
      · rw [finalClose_equity_times, loopBars]
        exact loopIdx_times_head _ _ _ bar.timestamp [] hseedt

/-- C3 witness: a single-bar run has an equity series of length
`(1 - 20) + 1 = 1`, seeded at the bar's timestamp with the initial
balance. -/
theorem c3_equity_length_witness :
    runBot [(⟨7, 100, 100, 100, 100, 1⟩ : Bar)] (mkBot 10000 0.0005 0.0002) =
      some (finalClose [(⟨7, 100, 100, 100, 100, 1⟩ : Bar)]
        (loopBars [(⟨7, 100, 100, 100, 100, 1⟩ : Bar)]
          (seedEquity [(⟨7, 100, 100, 100, 100, 1⟩ : Bar)] (mkBot 10000 0.0005 0.0002)))) ∧
    (finalClose [(⟨7, 100, 100, 100, 100, 1⟩ : Bar)]
        (loopBars [(⟨7, 100, 100, 100, 100, 1⟩ : Bar)]
          (seedEquity [(⟨7, 100, 100, 100, 100, 1⟩ : Bar)]
            (mkBot 10000 0.0005 0.0002)))).equity_curve.length =
      (([(⟨7, 100, 100, 100, 100, 1⟩ : Bar)].length - 20) + 1) :=
  ⟨rfl,
    (c3_equity_length 10000 0.0005 0.0002 [(⟨7, 100, 100, 100, 100, 1⟩ : Bar)] _ rfl).1⟩

/-! ## Claim C9 -/

/-- C9 counterexample.  On the empty bar sequence `run` does not complete:
seeding the equity curve indexes `times[0]` and raises `IndexError`
(modelled as `none`), so "including the empty sequence ... completes without
raising an error" fails. -/
theorem c9_empty_counterexample :
    runBot [] (mkBot 10000 0.0005 0.0002) = none := rfl

/-- C9 (amended).  For every nonempty bar sequence with fewer bars than the
lookback window (20), the run completes without error, makes no trading
decision (the loop body never executes), the trade ledger stays empty and
the final balance equals the initial balance. -/
theorem c9_short_history_no_trades (b c s : ℚ) (bars : List Bar)
    (h1 : bars ≠ []) (h2 : bars.length < 20) :
    ∃ stF, runBot bars (mkBot b c s) = some stF ∧
      stF.trades = [] ∧ stF.balance = b ∧ stF.position = none ∧
      loopBars bars (seedEquity bars (mkBot b c s)) =
        seedEquity bars (mkBot b c s) := by
  have hdrop : (List.range bars.length).drop 20 = [] := by
    apply List.drop_eq_nil_of_le
    simpa using Nat.le_of_lt (Nat.lt_of_lt_of_le h2 (by norm_num))
  have hloop : loopBars bars (seedEquity bars (mkBot b c s)) =
      seedEquity bars (mkBot b c s) :=
    loopIdx_position_of_empty bars _ hdrop
  cases bars with
  | nil => exact absurd rfl h1
  | cons bar rest =>
      refine ⟨seedEquity (bar :: rest) (mkBot b c s), ?_, rfl, rfl, rfl, hloop⟩
      have hfc : finalClose (bar :: rest) (seedEquity (bar :: rest) (mkBot b c s)) =
          seedEquity (bar :: rest) (mkBot b c s) := by
        simp [finalClose, seedEquity_position, mkBot]
      rw [runBot, hloop, hfc]

/-- C9 witness: a one-bar input runs to completion with no trades and the
starting balance intact. -/
theorem c9_short_history_no_trades_witness :
    ([(⟨7, 100, 100, 100, 100, 1⟩ : Bar)] ≠ []) ∧
    ([(⟨7, 100, 100, 100, 100, 1⟩ : Bar)].length < 20) ∧
    ∃ stF, runBot [(⟨7, 100, 100, 100, 100, 1⟩ : Bar)] (mkBot 10000 0.0005 0.0002) =
        some stF ∧
      stF.trades = [] ∧ stF.balance = 10000 ∧ stF.position = none ∧
      loopBars [(⟨7, 100, 100, 100, 100, 1⟩ : Bar)]
          (seedEquity [(⟨7, 100, 100, 100, 100, 1⟩ : Bar)] (mkBot 10000 0.0005 0.0002)) =
        seedEquity [(⟨7, 100, 100, 100, 100, 1⟩ : Bar)] (mkBot 10000 0.0005 0.0002) :=
  ⟨by simp, by simp,
    c9_short_history_no_trades 10000 0.0005 0.0002
      [(⟨7, 100, 100, 100, 100, 1⟩ : Bar)] (by simp) (by simp)⟩

/-! ## A concrete run that opens a position

Twenty warm-up bars (high 200, low 100) followed by one decision bar whose
close 138.2 sits exactly on the 61.8% retracement of the 100–200 range while
the 5-bar MA (147.64) exceeds the 10-bar MA (123.82): the single processed
bar signals BUY and opens a Long, which is still open when the loop ends. -/

/-- Warm-up bar with close `c`, high 200 and low 100, at time `t`. -/
def warmBar (c : ℚ) (t : ℕ) : Bar := ⟨t, c, 200, 100, c, 1⟩

/-- Sixteen closes at 100, four at 150, then the decision bar at 138.2. -/
def bars21 : List Bar :=
  ((List.range 16).map (fun t => warmBar 100 t)) ++
  ((List.range 4).map (fun t => warmBar 150 (16 + t))) ++
  [⟨20, 138.2, 138.2, 138.2, 138.2, 1⟩]

/-- A bot with the default constructor parameters of `BacktestBot()`. -/
def demoBot : BotState := mkBot 10000 0.0005 0.0002

set_option maxRecDepth 10000 in
theorem bars21_loop_position :
    (loopBars bars21 (seedEquity bars21 demoBot)).position = some Side.long := by
  norm_num [loopBars, loopIdx, stepBar, bars21, warmBar, seedEquity, demoBot, mkBot,
    signalAt, evaluate_signals, calculate_ma, calculate_fibonacci_levels,
    near_fibonacci, DEFAULT_SHORT_PERIOD, DEFAULT_LONG_PERIOD, DEFAULT_TOLERANCE,
    handle_trade, open_trade, close_trade, fillPrice, recordEquity, List.range_succ]
  rfl

theorem bars21_ne_nil : bars21 ≠ [] := by
  intro h
  have := congrArg List.length h
  simp [bars21] at this

/-! ## Claim C6 -/

/-- C6.  After the loop, a still-open position is closed exactly once, at the
final bar's raw close (`closes[-1]`, not the slippage-adjusted fill price)
and the final bar's timestamp; a flat position at loop end triggers no extra
close. -/
theorem c6_forced_final_close (bars : List Bar) (st stL : BotState)
    (h1 : bars ≠ []) (hL : stL = loopBars bars (seedEquity bars st)) :
    runBot bars st = some (finalClose bars stL) ∧
    (stL.position = none → finalClose bars stL = stL) ∧
    (∀ side : Side, stL.position = some side →
      finalClose bars stL =
        close_trade (bars.getLastD default).close (bars.getLastD default).timestamp stL ∧
      (finalClose bars stL).trades.length = stL.trades.length + 1 ∧
      (finalClose bars stL).position = none) := by
  refine ⟨?_, ?_, ?_⟩
  · cases bars with
    | nil => exact absurd rfl h1
    | cons bar rest => rw [hL]; rfl
  · intro hflat; simp [finalClose, hflat]
  · intro side hside
    obtain ⟨tr, hcl⟩ := close_trade_of_some (bars.getLastD default).close
      (bars.getLastD default).timestamp stL side hside
    have hfc : finalClose bars stL =
        close_trade (bars.getLastD default).close (bars.getLastD default).timestamp stL := by
      simp [finalClose, hside]
    refine ⟨hfc, ?_, ?_⟩
    · rw [hfc, hcl]; simp
    · rw [hfc, hcl]

/-- C6 witness on the concrete run that ends with an open Long. -/
theorem c6_forced_final_close_witness :
    (bars21 ≠ []) ∧
    (loopBars bars21 (seedEquity bars21 demoBot)).position = some Side.long ∧
    (finalClose bars21 (loopBars bars21 (seedEquity bars21 demoBot)) =
        close_trade (bars21.getLastD default).close (bars21.getLastD default).timestamp
          (loopBars bars21 (seedEquity bars21 demoBot)) ∧
      (finalClose bars21 (loopBars bars21 (seedEquity bars21 demoBot))).trades.length =
        (loopBars bars21 (seedEquity bars21 demoBot)).trades.length + 1 ∧
      (finalClose bars21 (loopBars bars21 (seedEquity bars21 demoBot))).position = none) :=
  ⟨bars21_ne_nil, bars21_loop_position,
    (c6_forced_final_close bars21 demoBot _ bars21_ne_nil rfl).2.2
      Side.long bars21_loop_position⟩

/-! ## Claim C10 -/

theorem seedEquity_curve_last (bars : List Bar) (st : BotState) :
    (seedEquity bars st).equity_curve.getLast? = some (seedEquity bars st).balance := by
  simp [seedEquity]

/-- C10.  The forced end-of-run close touches only the balance, the position
fields and the trade ledger: the equity series (hence the Sharpe ratio and
maximum drawdown computed from it) is exactly that of the pre-close state,
whose last point still holds the pre-close balance, while the reported end
balance additionally includes the final trade's net PnL. -/
theorem c10_final_close_frame (bars : List Bar) (st stL : BotState) (side : Side)
    (h1 : bars ≠ []) (hL : stL = loopBars bars (seedEquity bars st))
    (h2 : stL.position = some side) :
    ∃ tr : Trade,
      runBot bars st = some (finalClose bars stL) ∧
      (finalClose bars stL).equity_curve = stL.equity_curve ∧
      (finalClose bars stL).equity_times = stL.equity_times ∧
      sharpeOf (finalClose bars stL).equity_curve = sharpeOf stL.equity_curve ∧
      maxDrawdown (finalClose bars stL).equity_curve = maxDrawdown stL.equity_curve ∧
      stL.equity_curve.getLast? = some stL.balance ∧
      (finalClose bars stL).trades = stL.trades ++ [tr] ∧
      (finalClose bars stL).balance = stL.balance + tr.pnl := by
  obtain ⟨tr, hcl⟩ := close_trade_of_some (bars.getLastD default).close
    (bars.getLastD default).timestamp stL side h2
  have hfc : finalClose bars stL =
      close_trade (bars.getLastD default).close (bars.getLastD default).timestamp stL := by
    simp [finalClose, h2]
  refine ⟨tr, ?_, finalClose_equity_curve bars stL, finalClose_equity_times bars stL,
    by rw [finalClose_equity_curve], by rw [finalClose_equity_curve], ?_, ?_, ?_⟩
  · cases bars with
    | nil => exact absurd rfl h1
    | cons bar rest => rw [hL]; rfl
  · rw [hL, loopBars]
    exact loopIdx_curve_last _ _ _ (seedEquity_curve_last bars st)
  · rw [hfc, hcl]
  · rw [hfc, hcl]

/-- C10 witness on the concrete run that ends with an open Long. -/
theorem c10_final_close_frame_witness :
    (bars21 ≠ []) ∧
    (loopBars bars21 (seedEquity bars21 demoBot)).position = some Side.long ∧
    ∃ tr : Trade,
      runBot bars21 demoBot =
        some (finalClose bars21 (loopBars bars21 (seedEquity bars21 demoBot))) ∧
      (finalClose bars21 (loopBars bars21 (seedEquity bars21 demoBot))).equity_curve =
        (loopBars bars21 (seedEquity bars21 demoBot)).equity_curve ∧
      (finalClose bars21 (loopBars bars21 (seedEquity bars21 demoBot))).equity_times =
        (loopBars bars21 (seedEquity bars21 demoBot)).equity_times ∧
      sharpeOf (finalClose bars21 (loopBars bars21 (seedEquity bars21 demoBot))).equity_curve =
        sharpeOf (loopBars bars21 (seedEquity bars21 demoBot)).equity_curve ∧
      maxDrawdown (finalClose bars21 (loopBars bars21 (seedEquity bars21 demoBot))).equity_curve =
        maxDrawdown (loopBars bars21 (seedEquity bars21 demoBot)).equity_curve ∧
      (loopBars bars21 (seedEquity bars21 demoBot)).equity_curve.getLast? =
        some (loopBars bars21 (seedEquity bars21 demoBot)).balance ∧
      (finalClose bars21 (loopBars bars21 (seedEquity bars21 demoBot))).trades =
        (loopBars bars21 (seedEquity bars21 demoBot)).trades ++ [tr] ∧
      (finalClose bars21 (loopBars bars21 (seedEquity bars21 demoBot))).balance =
        (loopBars bars21 (seedEquity bars21 demoBot)).balance + tr.pnl :=
  ⟨bars21_ne_nil, bars21_loop_position,
    c10_final_close_frame bars21 demoBot _ Side.long bars21_ne_nil rfl
      bars21_loop_position⟩

/-! ## Claim C2 -/

theorem recon_seed (b0 : ℚ) (bars : List Bar) (q : BotState × ℚ)
    (h : ReconInv b0 q) : ReconInv b0 (seedEquityG bars q) := by
  unfold ReconInv at h ⊢
  simpa [seedEquityG, seedEquity] using h

/-- C2.  Balance reconciliation: with the open commissions accumulated in
the ghost component, every operation of the run preserves
`balance = start - Σ(open commissions) + Σ(net_pnl of closed trades)` (so it
holds at every instant), the ghost run projects onto the real run, and at
run end the final balance satisfies the reconciliation; the equity-recording
steps (`seedEquity`, `recordEquity`) never touch the balance or the ledger —
only `open_trade` and `close_trade` do. -/
theorem c2_balance_reconciliation (b c s : ℚ) (bars : List Bar)
    (h1 : bars ≠ []) :
    (∀ (idxs : List ℕ) (q : BotState × ℚ),
      ReconInv b q → ReconInv b (loopIdxG bars idxs q)) ∧
    (∀ q : BotState × ℚ, ReconInv b q → ReconInv b (finalCloseG bars q)) ∧
    (∀ st0 : BotState, (seedEquity bars st0).balance = st0.balance ∧
      (seedEquity bars st0).trades = st0.trades) ∧
    (∀ (t : ℕ) (st0 : BotState), (recordEquity t st0).balance = st0.balance ∧
      (recordEquity t st0).trades = st0.trades) ∧
    ∃ (stF : BotState) (g : ℚ),
      runG bars (mkBot b c s, 0) = some (stF, g) ∧
      runBot bars (mkBot b c s) = some stF ∧
      stF.balance = b - g + sumPnl stF.trades := by
  refine ⟨fun idxs q h => recon_loopIdx b bars idxs q h,
    fun q h => recon_final b bars q h,
    fun st0 => ⟨rfl, rfl⟩, fun t st0 => ⟨rfl, rfl⟩, ?_⟩
  have hinit : ReconInv b (mkBot b c s, 0) := by
    simp [ReconInv, mkBot, sumPnl]
  have hrec : ReconInv b
      (finalCloseG bars (loopBarsG bars (seedEquityG bars (mkBot b c s, 0)))) :=
    recon_final b bars _ (recon_loopIdx b bars _ _ (recon_seed b bars _ hinit))
  cases bars with
  | nil => exact absurd rfl h1
  | cons bar rest =>
      refine ⟨(finalCloseG (bar :: rest)
          (loopBarsG (bar :: rest) (seedEquityG (bar :: rest) (mkBot b c s, 0)))).1,
        (finalCloseG (bar :: rest)
          (loopBarsG (bar :: rest) (seedEquityG (bar :: rest) (mkBot b c s, 0)))).2,
        rfl, ?_, hrec⟩
      have hproj := runG_fst (bar :: rest) (mkBot b c s, 0)
      simpa [runG] using hproj.symm

/-- C2 witness on a one-bar run with the default parameters. -/
theorem c2_balance_reconciliation_witness :
    ([(⟨7, 100, 100, 100, 100, 1⟩ : Bar)] ≠ []) ∧
    ((∀ (idxs : List ℕ) (q : BotState × ℚ),
      ReconInv 10000 q →
        ReconInv 10000 (loopIdxG [(⟨7, 100, 100, 100, 100, 1⟩ : Bar)] idxs q)) ∧
    (∀ q : BotState × ℚ, ReconInv 10000 q →
      ReconInv 10000 (finalCloseG [(⟨7, 100, 100, 100, 100, 1⟩ : Bar)] q)) ∧
    (∀ st0 : BotState,
      (seedEquity [(⟨7, 100, 100, 100, 100, 1⟩ : Bar)] st0).balance = st0.balance ∧
      (seedEquity [(⟨7, 100, 100, 100, 100, 1⟩ : Bar)] st0).trades = st0.trades) ∧
    (∀ (t : ℕ) (st0 : BotState), (recordEquity t st0).balance = st0.balance ∧
      (recordEquity t st0).trades = st0.trades) ∧
    ∃ (stF : BotState) (g : ℚ),
      runG [(⟨7, 100, 100, 100, 100, 1⟩ : Bar)] (mkBot 10000 0.0005 0.0002, 0) =
        some (stF, g) ∧
      runBot [(⟨7, 100, 100, 100, 100, 1⟩ : Bar)] (mkBot 10000 0.0005 0.0002) =
        some stF ∧
      stF.balance = 10000 - g + sumPnl stF.trades) :=
  ⟨by simp,
    c2_balance_reconciliation 10000 0.0005 0.0002
      [(⟨7, 100, 100, 100, 100, 1⟩ : Bar)] (by simp)⟩

/-! ## Claim C8 -/

theorem pctChangeAux_length (prev : ℚ) (l : List ℚ) :
    (pctChangeAux prev l).length = l.length := by
  induction l generalizing prev with
  | nil => rfl
  | cons x xs ih => simp [pctChangeAux, ih]

theorem returnsOf_length (curve : List ℚ) :
    (returnsOf curve).length = curve.length := by
  cases curve with
  | nil => rfl
  | cons b rest => simp [returnsOf, pctChangeAux_length]

/-- A sum of squared deviations vanishes exactly when every element equals
the reference value. -/
theorem sum_sq_dev_eq_zero_iff (l : List ℚ) (m : ℚ) :
    ((l.map (fun x => (x - m) ^ 2)).sum = 0) ↔ ∀ x ∈ l, x = m := by
  induction l with
  | nil => simp
  | cons a t ih =>
      simp only [List.map_cons, List.sum_cons, List.mem_cons]
      have ha : 0 ≤ (a - m) ^ 2 := sq_nonneg _
      have ht : 0 ≤ (t.map (fun x => (x - m) ^ 2)).sum := by
        apply List.sum_nonneg
        intro x hx
        obtain ⟨y, hy, rfl⟩ := List.mem_map.mp hx
        exact sq_nonneg _
      rw [add_eq_zero_iff_of_nonneg ha ht, sq_eq_zero_iff, sub_eq_zero, ih]
      constructor
      · rintro ⟨h1, h2⟩ x hx
        rcases hx with rfl | hx
        exacts [h1, h2 x hx]
      · intro h
        exact ⟨h a (Or.inl rfl), fun x hx => h x (Or.inr hx)⟩

/-- C8.  The Sharpe ratio of `summary` is `NaN` exactly when the per-step
return series (first return forced to `0` by `fillna(0)`) has zero sum of
squared deviations, i.e. zero standard deviation — in that case the mean is
also `0`, so the float division is `0/0 = NaN` rather than an infinity or an
exception — and in every other case it is the finite value
`mean * sqrt(annualization_factor / sample_variance)
= mean / stddev * sqrt(annualization_factor)`. -/
theorem c8_sharpe_nan_iff_zero_stddev (curve : List ℚ) :
    (sharpeOf curve = SharpeVal.nan ↔ ssd (returnsOf curve) = 0) ∧
    (∀ m rad, sharpeOf curve = SharpeVal.fin m rad →
      m = mean (returnsOf curve) ∧
      rad = annualization_factor /
        (ssd (returnsOf curve) / (((returnsOf curve).length : ℚ) - 1))) := by
  by_cases hlen : (returnsOf curve).length < 2
  · have hn : sharpeOf curve = SharpeVal.nan := by
      simp [sharpeOf, hlen]
    have hssd : ssd (returnsOf curve) = 0 := by
      rcases hr : returnsOf curve with _ | ⟨a, _ | ⟨b, t⟩⟩
      · simp [ssd]
      · simp [ssd, mean]
      · rw [hr] at hlen
        simp only [List.length_cons] at hlen
        omega
    refine ⟨by simp [hn, hssd], fun m rad hfin => ?_⟩
    rw [hn] at hfin
    cases hfin
  · have h2 : 2 ≤ (returnsOf curve).length := Nat.not_lt.mp hlen
    have hne : (((returnsOf curve).length : ℚ) - 1) ≠ 0 := by
      have h2q : (2 : ℚ) ≤ ((returnsOf curve).length : ℚ) := by exact_mod_cast h2
      intro h0
      nlinarith
    by_cases hv : ssd (returnsOf curve) / (((returnsOf curve).length : ℚ) - 1) = 0
    · have hssd : ssd (returnsOf curve) = 0 := by
        rcases div_eq_zero_iff.mp hv with h | h
        · exact h
        · exact absurd h hne
      have hall : ∀ x ∈ returnsOf curve, x = mean (returnsOf curve) := by
        have := (sum_sq_dev_eq_zero_iff (returnsOf curve) (mean (returnsOf curve))).mp
        exact this hssd
      have hhead : (0 : ℚ) ∈ returnsOf curve := by
        cases curve with
        | nil => rw [returnsOf] at hlen; simp at hlen
        | cons b rest => simp [returnsOf]
      have hm : mean (returnsOf curve) = 0 := (hall 0 hhead).symm
      have hn : sharpeOf curve = SharpeVal.nan := by
        simp [sharpeOf, hlen, hv, hm]
      refine ⟨by simp [hn, hssd], fun m rad hfin => ?_⟩
      rw [hn] at hfin
      cases hfin
    · have hssd : ssd (returnsOf curve) ≠ 0 := by
        intro h0
        exact hv (by rw [h0, zero_div])
      have hsh : sharpeOf curve = SharpeVal.fin (mean (returnsOf curve))
          (annualization_factor /
            (ssd (returnsOf curve) / (((returnsOf curve).length : ℚ) - 1))) := by
        simp [sharpeOf, hlen, hv]
      refine ⟨by simp [hsh, hssd], fun m rad hfin => ?_⟩
      rw [hsh] at hfin
      have := SharpeVal.fin.inj hfin
      exact ⟨this.1.symm, this.2.symm⟩

end CryptoTrader
